import Mathlib

/-!
Verification of the `neobit` bitflags library (`src/lib.rs`).

The library's `neobit!` macro generates, for a struct backed by a fixed-width
integer type `$int_ty`, a set of flag constants and bitwise operations.  We
embed a generated flags type shallowly: a backing type of width `w` is
modelled by natural numbers below `2 ^ w` (the bit pattern of the integer,
which is the same for signed and unsigned backing types), bitwise NOT over
the backing width is XOR with the all-ones mask `2 ^ w - 1`, and the list of
`const` definitions is a list of name/value pairs in declaration order.
-/

namespace Neobit

/-- The all-ones bit pattern of a `w`-bit integer type. -/
def mask (w : Nat) : Nat := 2 ^ w - 1

/-- Bitwise NOT (`!x` in Rust) over the `w`-bit backing width: every bit of
the pattern is inverted, which on bit patterns is XOR with the mask. -/
def wnot (w x : Nat) : Nat := x ^^^ mask w

/-- Rust `wrapping_sub` on a `w`-bit integer: subtraction modulo `2 ^ w`. -/
def wrappingSub (w a b : Nat) : Nat := (a + (2 ^ w - b % 2 ^ w)) % 2 ^ w

/-- Rust `wrapping_neg` on a `w`-bit integer: `0.wrapping_sub(n)`. -/
def wrappingNeg (w n : Nat) : Nat := wrappingSub w 0 n

/-- A flags type generated by the `neobit!` macro: the width of the backing
integer type `$int_ty` and the `__FLAGS` constant table, i.e. the list of
`(stringify!($flag_name), $flag_value)` pairs in declaration order. -/
structure FlagsType where
  width : Nat
  defs : List (String × Nat)

/-- Well-formedness of a flags type: every `const` value fits in the backing
type (automatic in Rust, where the values have type `$int_ty`). -/
def FlagsType.WF (t : FlagsType) : Prop := ∀ p ∈ t.defs, p.2 < 2 ^ t.width

instance (t : FlagsType) : Decidable t.WF :=
  inferInstanceAs (Decidable (∀ p ∈ t.defs, p.2 < 2 ^ t.width))

/-- `bits()`: returns the raw bit value stored in the struct. -/
def bits (x : Nat) : Nat := x

/-- `empty()`: all bits unset. -/
def empty : Nat := 0

/-- `from_bits_retain(bits)`: keeps all bits, no validation. -/
def from_bits_retain (b : Nat) : Nat := b

/-- `all()`: starts from 0 and ORs in every defined value in order
(`result.bits |= $flag_value;` for each definition). -/
def all (t : FlagsType) : Nat := t.defs.foldl (fun acc p => acc ||| p.2) 0

/-- `from_bits(bits)`: `Some` when `(bits & !all) == 0`, else `None`. -/
def from_bits (t : FlagsType) (b : Nat) : Option Nat :=
  if b &&& wnot t.width (all t) = 0 then some b else none

/-- `from_bits_truncate(bits)`: `from_bits_retain(bits & Self::all().bits())`. -/
def from_bits_truncate (t : FlagsType) (b : Nat) : Nat :=
  from_bits_retain (b &&& bits (all t))

/-- `union(self, other)`: bitwise OR. -/
def union (a b : Nat) : Nat := a ||| b

/-- `intersection(self, other)`: bitwise AND. -/
def intersection (a b : Nat) : Nat := a &&& b

/-- `difference(self, other)`: `self & !other`. -/
def difference (w a b : Nat) : Nat := a &&& wnot w b

/-- `symmetric_difference(self, other)`: bitwise XOR. -/
def symmetric_difference (a b : Nat) : Nat := a ^^^ b

/-- `complement(self)`: pure bitwise NOT of the whole backing width,
deliberately not masked to `all().bits`. -/
def complement (w a : Nat) : Nat := wnot w a

/-- `is_empty(self)`: `self.bits == 0`. -/
def is_empty (a : Nat) : Bool := a == 0

/-- `is_all(self)`: `self.bits == Self::all().bits`, a strict equality. -/
def is_all (t : FlagsType) (a : Nat) : Bool := a == all t

/-- `contains(self, other)`: `(self.bits & other.bits) == other.bits`. -/
def contains (a b : Nat) : Bool := (a &&& b) == b

/-- `intersects(self, other)`: `(self.bits & other.bits) != 0`. -/
def intersects (a b : Nat) : Bool := (a &&& b) != 0

/-- `set(&mut self, other, condition)`: computes the full-width mask
`m = (condition as $int_ty).wrapping_neg()` and blends:
`self.bits = (self.bits & !other.bits) | (other.bits & m)`. -/
def set (w a other : Nat) (condition : Bool) : Nat :=
  let m := wrappingNeg w (if condition then 1 else 0)
  (a &&& wnot w other) ||| (other &&& m)

/-- `insert(&mut self, other)`: `self.bits |= other.bits` (result state). -/
def insert (a other : Nat) : Nat := a ||| other

/-- `remove(&mut self, other)`: `self.bits &= !other.bits` (result state). -/
def remove (w a other : Nat) : Nat := a &&& wnot w other

/-- `toggle(&mut self, other)`: `self.bits ^= other.bits` (result state). -/
def toggle (a other : Nat) : Nat := a ^^^ other

/-- `impl From<$int_ty> for $name`: `Self::from_bits_retain(bits)`. -/
def fromInt (b : Nat) : Nat := from_bits_retain b

/-- `impl From<$name> for $int_ty`: `flags.bits()`. -/
def intFrom (x : Nat) : Nat := bits x

/-- `impl BitOr`: `self.union(rhs)`. -/
def bitor (a b : Nat) : Nat := union a b

/-- `impl BitOrAssign`: `*self = self.union(rhs)` (result state). -/
def bitor_assign (a b : Nat) : Nat := union a b

/-- `impl BitAnd`: `self.intersection(rhs)`. -/
def bitand (a b : Nat) : Nat := intersection a b

/-- `impl BitAndAssign`: `*self = self.intersection(rhs)` (result state). -/
def bitand_assign (a b : Nat) : Nat := intersection a b

/-- `impl BitXor`: `self.symmetric_difference(rhs)`. -/
def bitxor (a b : Nat) : Nat := symmetric_difference a b

/-- `impl BitXorAssign`: `*self = self.symmetric_difference(rhs)` (result state). -/
def bitxor_assign (a b : Nat) : Nat := symmetric_difference a b

/-- `impl Not`: `self.complement()`. -/
def not (w a : Nat) : Nat := complement w a

/-- `impl Sub`: `self.difference(rhs)`. -/
def sub (w a b : Nat) : Nat := difference w a b

/-- `impl SubAssign`: `*self = self.difference(rhs)` (result state). -/
def sub_assign (w a b : Nat) : Nat := difference w a b

/-- Reinterpretation of a `w`-bit pattern as a signed (two's-complement)
integer, for statements about signed backing types. -/
def toSigned (w x : Nat) : Int :=
  if x < 2 ^ (w - 1) then (x : Int) else (x : Int) - 2 ^ w

/-- The single-bit test of the Debug formatter:
`value != 0 && (value & (value.wrapping_sub(1))) == 0`. -/
def isSingleBit (w value : Nat) : Bool :=
  value != 0 && (value &&& wrappingSub w value 1) == 0

/-- The flag-name loop of `Debug::fmt`: walks the `__FLAGS` table in
declaration order, emits the name of every single-bit definition whose bits
are all present in the remaining `bits`, clearing those bits
(`bits &= !value`) and dropping the `first` flag on each emission.  Returns
the emitted (name, value) pairs in emission order, the remaining bits, and
the final `first` flag. -/
def fmtFlagsLoop (w : Nat) (flags : List (String × Nat)) (b : Nat) (first : Bool) :
    List (String × Nat) × Nat × Bool :=
  match flags with
  | [] => ([], b, first)
  | (n, v) :: rest =>
      if isSingleBit w v && ((b &&& v) == v) then
        let r := fmtFlagsLoop w rest (b &&& wnot w v) false
        ((n, v) :: r.1, r.2)
      else
        fmtFlagsLoop w rest b first

/-- The observable content of one `Debug::fmt` rendering: the named flags
emitted by the loop, the leftover bits emitted as `{:#x}` when nonzero, and
whether the literal `empty` was emitted (exactly when `first` survived both
emission phases). -/
structure DebugOutput where
  emitted : List (String × Nat)
  hexPart : Option Nat
  emptyLit : Bool
deriving DecidableEq

/-- `Debug::fmt` for a flags value: runs the flag-name loop on the raw bits
with `first = true`, then emits the remaining bits as hex if nonzero, then
emits `empty` if nothing was emitted. -/
def debugFmt (t : FlagsType) (x : Nat) : DebugOutput :=
  let r := fmtFlagsLoop t.width t.defs x true
  { emitted := r.1
    hexPart := if r.2.1 ≠ 0 then some r.2.1 else none
    emptyLit := if r.2.1 ≠ 0 then false else r.2.2 }

/-- OR of a list of bit patterns (helper for stating `all` and round-trips). -/
def orAll (l : List Nat) : Nat := l.foldr (fun a b => a ||| b) 0

/-- The `Permissions` example type from the crate documentation:
`u8` backing with READ/WRITE/EXECUTE. -/
def Permissions : FlagsType :=
  ⟨8, [("READ", 1), ("WRITE", 2), ("EXECUTE", 4)]⟩

/-- A flags type with two definitions sharing the same single-bit value,
for exercising the duplicate-name behaviour of `Debug::fmt`. -/
def DupFlags : FlagsType :=
  ⟨8, [("A", 1), ("ALIAS_A", 1), ("B", 2)]⟩

theorem mask_lt (w : Nat) : mask w < 2 ^ w := by
  have : 0 < 2 ^ w := Nat.pos_pow_of_pos w (by norm_num)
  simp only [mask]
  omega

theorem wnot_lt {w x : Nat} (h : x < 2 ^ w) : wnot w x < 2 ^ w :=
  Nat.xor_lt_two_pow h (mask_lt w)

theorem testBit_wnot (w x i : Nat) :
    (wnot w x).testBit i = ((x.testBit i).xor (decide (i < w))) := by
  simp [wnot, mask, Nat.testBit_xor, Nat.testBit_two_pow_sub_one]

theorem testBit_ge {x w i : Nat} (h : x < 2 ^ w) (hi : w ≤ i) :
    x.testBit i = false :=
  Nat.testBit_lt_two_pow (lt_of_lt_of_le h (Nat.pow_le_pow_right (by norm_num) hi))

theorem and_wnot_self {w v : Nat} (hv : v < 2 ^ w) : v &&& wnot w v = 0 := by
  apply Nat.eq_of_testBit_eq
  intro i
  by_cases hi : i < w
  · simp [Nat.testBit_and, testBit_wnot, hi]
  · simp [Nat.testBit_and, testBit_ge hv (le_of_not_lt hi)]

theorem wnot_wnot (w x : Nat) : wnot w (wnot w x) = x := by
  simp [wnot, Nat.xor_assoc]

theorem or_and_wnot {w v b : Nat} (hv : v < 2 ^ w) (hb : b < 2 ^ w)
    (hsub : b &&& v = v) : v ||| (b &&& wnot w v) = b := by
  apply Nat.eq_of_testBit_eq
  intro i
  have hp : (b.testBit i && v.testBit i) = v.testBit i := by
    rw [← Nat.testBit_and, hsub]
  by_cases hi : i < w
  · have hd : decide (i < w) = true := by simpa using hi
    simp only [Nat.testBit_or, Nat.testBit_and, testBit_wnot, hd]
    cases hbi : b.testBit i <;> cases hvi : v.testBit i <;> simp_all
  · simp [Nat.testBit_or, Nat.testBit_and,
      testBit_ge hb (le_of_not_lt hi), testBit_ge hv (le_of_not_lt hi)]

theorem and_sub_trans {a b c : Nat} (h1 : a &&& b = b) (h2 : b &&& c = c) :
    a &&& c = c := by
  calc a &&& c = a &&& (b &&& c) := by rw [h2]
    _ = (a &&& b) &&& c := (Nat.and_assoc a b c).symm
    _ = b &&& c := by rw [h1]
    _ = c := h2

theorem and_and_wnot {w a v : Nat} (hv : v < 2 ^ w) :
    (a &&& v) &&& wnot w v = 0 := by
  rw [Nat.and_assoc, and_wnot_self hv, Nat.and_zero]

theorem and_self_and (b x : Nat) : b &&& (b &&& x) = b &&& x := by
  rw [← Nat.and_assoc, Nat.and_self]

theorem and_disj_of_sub {w v b q : Nat} (hvlt : v < 2 ^ w) (hbv : b &&& v = v)
    (hq : (b &&& wnot w v) &&& q = q) : v &&& q = 0 := by
  calc v &&& q = v &&& ((b &&& wnot w v) &&& q) := by rw [hq]
    _ = (v &&& (b &&& wnot w v)) &&& q := (Nat.and_assoc ..).symm
    _ = ((v &&& b) &&& wnot w v) &&& q := by rw [Nat.and_assoc v b (wnot w v)]
    _ = ((b &&& v) &&& wnot w v) &&& q := by rw [Nat.and_comm v b]
    _ = (v &&& wnot w v) &&& q := by rw [hbv]
    _ = 0 &&& q := by rw [and_wnot_self hvlt]
    _ = 0 := Nat.zero_and q

theorem orAll_cons (x : Nat) (l : List Nat) : orAll (x :: l) = x ||| orAll l := rfl

theorem orAll_testBit (l : List Nat) (i : Nat) :
    (orAll l).testBit i = l.any (fun v => v.testBit i) := by
  induction l with
  | nil => simp [orAll]
  | cons x xs ih => simp [orAll_cons, Nat.testBit_or, ih]

theorem orAll_lt {w : Nat} {l : List Nat} (h : ∀ v ∈ l, v < 2 ^ w) :
    orAll l < 2 ^ w := by
  induction l with
  | nil => simp [orAll]
  | cons x xs ih =>
    rw [orAll_cons]
    exact Nat.or_lt_two_pow (h x (by simp)) (ih fun v hv => h v (by simp [hv]))

theorem orAll_and_of_mem {l : List Nat} {v : Nat} (hv : v ∈ l) :
    orAll l &&& v = v := by
  apply Nat.eq_of_testBit_eq
  intro i
  rw [Nat.testBit_and, orAll_testBit]
  cases hvi : v.testBit i
  · simp
  · simp only [Bool.and_true]
    rw [List.any_eq_true]
    exact ⟨v, hv, hvi⟩

theorem foldl_or_eq (l : List (String × Nat)) :
    ∀ a : Nat, l.foldl (fun acc p => acc ||| p.2) a = a ||| orAll (l.map Prod.snd) := by
  induction l with
  | nil => intro a; simp [orAll]
  | cons x xs ih =>
    intro a
    rw [List.foldl_cons, ih, List.map_cons, orAll_cons, Nat.or_assoc]

theorem all_eq_orAll (t : FlagsType) : all t = orAll (t.defs.map Prod.snd) := by
  rw [all, foldl_or_eq]
  simp

theorem all_lt {t : FlagsType} (h : t.WF) : all t < 2 ^ t.width := by
  rw [all_eq_orAll]
  apply orAll_lt
  intro v hv
  rcases List.mem_map.mp hv with ⟨p, hp, rfl⟩
  exact h p hp

theorem all_and_of_mem {t : FlagsType} {p : String × Nat} (hp : p ∈ t.defs) :
    all t &&& p.2 = p.2 := by
  rw [all_eq_orAll]
  exact orAll_and_of_mem (List.mem_map_of_mem Prod.snd hp)

theorem and_mask_eq {w b : Nat} (hb : b < 2 ^ w) : b &&& mask w = b := by
  simp only [mask]
  exact Nat.and_pow_two_sub_one_of_lt_two_pow hb

theorem wrappingNeg_one (w : Nat) : wrappingNeg w 1 = mask w := by
  have hpos : 0 < 2 ^ w := Nat.pos_pow_of_pos w (by norm_num)
  rcases Nat.lt_or_ge 1 (2 ^ w) with h | h
  · simp only [wrappingNeg, wrappingSub, mask, Nat.mod_eq_of_lt h, Nat.zero_add]
    exact Nat.mod_eq_of_lt (by omega)
  · have h1 : 2 ^ w = 1 := by omega
    simp [wrappingNeg, wrappingSub, mask, h1]

theorem wrappingNeg_zero (w : Nat) : wrappingNeg w 0 = 0 := by
  simp [wrappingNeg, wrappingSub, Nat.mod_self]

theorem set_true_eq_union {w a b : Nat} (ha : a < 2 ^ w) (hb : b < 2 ^ w) :
    set w a b true = union a b := by
  simp only [set, if_true, wrappingNeg_one, and_mask_eq hb, union]
  apply Nat.eq_of_testBit_eq
  intro i
  by_cases hi : i < w
  · have hd : decide (i < w) = true := by simpa using hi
    simp only [Nat.testBit_or, Nat.testBit_and, testBit_wnot, hd]
    cases hai : a.testBit i <;> cases hbi : b.testBit i <;> simp
  · simp [Nat.testBit_or, Nat.testBit_and,
      testBit_ge ha (le_of_not_lt hi), testBit_ge hb (le_of_not_lt hi)]

theorem set_false_eq_difference (w a b : Nat) :
    set w a b false = difference w a b := by
  simp [set, wrappingNeg_zero, difference]

theorem isSingleBit_ne_zero {w v : Nat} (h : isSingleBit w v = true) : v ≠ 0 := by
  have := (Bool.and_eq_true _ _).mp h
  simpa using this.1

theorem fmtFlagsLoop_spec (w : Nat) (flags : List (String × Nat)) :
    ∀ (b : Nat) (first : Bool), (∀ p ∈ flags, p.2 < 2 ^ w) → b < 2 ^ w →
    orAll ((fmtFlagsLoop w flags b first).1.map Prod.snd) |||
      (fmtFlagsLoop w flags b first).2.1 = b
    ∧ (∀ p ∈ (fmtFlagsLoop w flags b first).1,
        isSingleBit w p.2 = true ∧ b &&& p.2 = p.2)
    ∧ (fmtFlagsLoop w flags b first).1.Sublist flags
    ∧ (fmtFlagsLoop w flags b first).2.2 =
        (first && (fmtFlagsLoop w flags b first).1.isEmpty)
    ∧ b &&& (fmtFlagsLoop w flags b first).2.1 = (fmtFlagsLoop w flags b first).2.1
    ∧ List.Pairwise (fun p q => p.2 &&& q.2 = 0) (fmtFlagsLoop w flags b first).1 := by
  induction flags with
  | nil =>
    intro b first hv hb
    refine ⟨by simp [fmtFlagsLoop, orAll], by simp [fmtFlagsLoop], by simp [fmtFlagsLoop],
      by simp [fmtFlagsLoop], by simp [fmtFlagsLoop], by simp [fmtFlagsLoop]⟩
  | cons hd tl ih =>
    intro b first hv hb
    obtain ⟨n, v⟩ := hd
    have hvlt : v < 2 ^ w := hv (n, v) (by simp)
    have hvtl : ∀ p ∈ tl, p.2 < 2 ^ w := fun p hp => hv p (by simp [hp])
    by_cases hcond : (isSingleBit w v && ((b &&& v) == v)) = true
    · obtain ⟨hsb, hbeq⟩ := (Bool.and_eq_true _ _).mp hcond
      have hbv : b &&& v = v := by simpa using hbeq
      have hb2 : b &&& wnot w v < 2 ^ w := Nat.and_lt_two_pow b (wnot_lt hvlt)
      obtain ⟨ih1, ih2, ih3, ih4, ih5, ih6⟩ := ih (b &&& wnot w v) false hvtl hb2
      have heq : fmtFlagsLoop w ((n, v) :: tl) b first =
          ((n, v) :: (fmtFlagsLoop w tl (b &&& wnot w v) false).1,
           (fmtFlagsLoop w tl (b &&& wnot w v) false).2) := by
        simp [fmtFlagsLoop, hcond]
      rw [heq]
      have hbb : b &&& (b &&& wnot w v) = b &&& wnot w v := and_self_and b (wnot w v)
      refine ⟨?_, ?_, ?_, ?_, ?_, ?_⟩
      · rw [List.map_cons, orAll_cons, Nat.or_assoc, ih1]
        exact or_and_wnot hvlt hb hbv
      · intro p hp
        rcases List.mem_cons.mp hp with h | h
        · subst h
          exact ⟨hsb, hbv⟩
        · obtain ⟨h1, h2⟩ := ih2 p h
          exact ⟨h1, and_sub_trans hbb h2⟩
      · exact List.Sublist.cons₂ (n, v) ih3
      · rw [ih4]
        simp
      · exact and_sub_trans hbb ih5
      · refine List.Pairwise.cons ?_ ih6
        intro q hq
        exact and_disj_of_sub hvlt hbv (ih2 q hq).2
    · obtain ⟨ih1, ih2, ih3, ih4, ih5, ih6⟩ := ih b first hvtl hb
      have heq : fmtFlagsLoop w ((n, v) :: tl) b first = fmtFlagsLoop w tl b first := by
        simp only [fmtFlagsLoop]
        rw [if_neg]
        simpa using hcond
      rw [heq]
      exact ⟨ih1, ih2, List.Sublist.cons (n, v) ih3, ih4, ih5, ih6⟩

theorem wrappingNeg_lt (w n : Nat) : wrappingNeg w n < 2 ^ w :=
  Nat.mod_lt _ (Nat.pos_pow_of_pos w (by norm_num))

/-- C1: for every raw value `r`, `from_bits(r)` is `Some` of a flags value
whose raw bits equal `r` if and only if `(r & !all().bits) == 0`, and is
`None` otherwise; failure is signalled only by the absent `Option` value. -/
theorem from_bits_spec (t : FlagsType) (r : Nat) :
    (from_bits t r = some r ↔ r &&& wnot t.width (all t) = 0)
  ∧ (¬ r &&& wnot t.width (all t) = 0 → from_bits t r = none)
  ∧ (∀ v, from_bits t r = some v → bits v = r) := by
  unfold from_bits
  split <;> simp_all [bits]

/-- Witness for C1 at the crate's doc example: 0b011 is accepted with the
same raw bits, 0b1000 (an unknown bit) is rejected. -/
theorem from_bits_spec_witness :
    from_bits Permissions 3 = some 3 ∧ from_bits Permissions 8 = none :=
  ⟨(from_bits_spec Permissions 3).1.mpr (by decide),
   (from_bits_spec Permissions 8).2.1 (by decide)⟩

/-- C2: `complement` is the pure bitwise NOT of the entire backing width
(XOR with the all-ones pattern, never masked to `all().bits`), hence an
involution on every bit pattern; on a signed 8-bit backing type the
complement of the pattern 1 reads back as -2 in two's complement, and the
complement of a defined flag is not contained in `all()`. -/
theorem complement_spec (w a : Nat) :
    complement w (complement w a) = a
  ∧ complement w a = a ^^^ (2 ^ w - 1)
  ∧ toSigned 8 (complement 8 1) = -2
  ∧ contains (all Permissions) (complement Permissions.width 1) = false :=
  ⟨wnot_wnot w a, rfl, by decide, by decide⟩

/-- C4: `from_bits_truncate(r)` is exactly `from_bits_retain(r & all().bits)`,
so its raw bits are `r & all().bits`; it is total, and `from_bits` always
re-accepts its result. -/
theorem from_bits_truncate_spec (t : FlagsType) (r : Nat)
    (hall : all t < 2 ^ t.width) :
    from_bits_truncate t r = from_bits_retain (r &&& all t)
  ∧ bits (from_bits_truncate t r) = r &&& all t
  ∧ from_bits t (bits (from_bits_truncate t r)) = some (r &&& all t) := by
  refine ⟨rfl, rfl, ?_⟩
  show from_bits t (r &&& all t) = some (r &&& all t)
  unfold from_bits
  rw [if_pos (and_and_wnot hall)]

/-- Witness for C4: truncating 0b101 under `Permissions` keeps 0b001 and
`from_bits` accepts it. -/
theorem from_bits_truncate_spec_witness :
    all Permissions < 2 ^ Permissions.width
  ∧ from_bits Permissions (bits (from_bits_truncate Permissions 5)) =
      some (5 &&& all Permissions) :=
  ⟨by decide, (from_bits_truncate_spec Permissions 5 (by decide)).2.2⟩

/-- C5: the mutators agree with the pure operations: `insert` is `union`,
`remove` is `difference`, `toggle` is `symmetric_difference`, and `set`,
though implemented by the boolean-to-mask blend, equals `union` when the
condition is true and `difference` when it is false. -/
theorem mutator_spec (w a b : Nat) (ha : a < 2 ^ w) (hb : b < 2 ^ w) :
    insert a b = union a b
  ∧ remove w a b = difference w a b
  ∧ toggle a b = symmetric_difference a b
  ∧ set w a b true = union a b
  ∧ set w a b false = difference w a b :=
  ⟨rfl, rfl, rfl, set_true_eq_union ha hb, set_false_eq_difference w a b⟩

/-- Witness for C5 at concrete 8-bit values. -/
theorem mutator_spec_witness :
    (1 : Nat) < 2 ^ 8 ∧ (2 : Nat) < 2 ^ 8
  ∧ set 8 1 2 true = union 1 2 ∧ set 8 1 2 false = difference 8 1 2 :=
  ⟨by decide, by decide,
   (mutator_spec 8 1 2 (by decide) (by decide)).2.2.2.1,
   (mutator_spec 8 1 2 (by decide) (by decide)).2.2.2.2⟩

/-- C6: `from_bits_retain` stores the raw bits exactly; the `From`
conversion from the raw integer uses retain semantics (never validates),
the conversion back returns the exact stored pattern, and the raw-to-flags
-to-raw round trip is the identity. -/
theorem conversion_spec (r : Nat) :
    bits (from_bits_retain r) = r
  ∧ fromInt r = from_bits_retain r
  ∧ intFrom (fromInt r) = r :=
  ⟨rfl, rfl, rfl⟩

/-- C7: `all()` is the OR of every defined value (the fold agrees with the
grouping-independent OR of the value list), every definition is contained
in it, the zero-definition case yields `empty`, and `is_empty` / `is_all`
are strict equalities with 0 and `all().bits`. -/
theorem all_spec (t : FlagsType) (a : Nat) :
    all t = orAll (t.defs.map Prod.snd)
  ∧ (∀ p ∈ t.defs, contains (all t) p.2 = true)
  ∧ (∀ w0, all ⟨w0, []⟩ = empty)
  ∧ (is_empty a = true ↔ a = 0)
  ∧ (is_all t a = true ↔ a = all t) := by
  refine ⟨all_eq_orAll t, ?_, fun w0 => rfl, by simp [is_empty], by simp [is_all]⟩
  intro p hp
  simp [contains, all_and_of_mem hp]

/-- Witness for C7 at the doc example type. -/
theorem all_spec_witness :
    (∀ p ∈ Permissions.defs, contains (all Permissions) p.2 = true)
  ∧ is_all Permissions 7 = true :=
  ⟨(all_spec Permissions 7).2.1, (all_spec Permissions 7).2.2.2.2.mpr (by decide)⟩

/-- C8: every constructor other than `from_bits` and every operation and
predicate is a total function, and every produced bit pattern stays within
the backing width, so no input can overflow, trap, or panic. -/
theorem totality_spec (t : FlagsType) (w a b : Nat) (c : Bool)
    (ha : a < 2 ^ w) (hb : b < 2 ^ w) :
    empty < 2 ^ w
  ∧ from_bits_retain a < 2 ^ w
  ∧ union a b < 2 ^ w
  ∧ intersection a b < 2 ^ w
  ∧ difference w a b < 2 ^ w
  ∧ symmetric_difference a b < 2 ^ w
  ∧ complement w a < 2 ^ w
  ∧ set w a b c < 2 ^ w
  ∧ insert a b < 2 ^ w
  ∧ remove w a b < 2 ^ w
  ∧ toggle a b < 2 ^ w
  ∧ from_bits_truncate t a < 2 ^ w := by
  refine ⟨Nat.pos_pow_of_pos w (by norm_num), ha,
    Nat.or_lt_two_pow ha hb,
    Nat.and_lt_two_pow a hb,
    Nat.and_lt_two_pow a (wnot_lt hb),
    Nat.xor_lt_two_pow ha hb,
    wnot_lt ha,
    ?_,
    Nat.or_lt_two_pow ha hb,
    Nat.and_lt_two_pow a (wnot_lt hb),
    Nat.xor_lt_two_pow ha hb,
    lt_of_le_of_lt Nat.and_le_left ha⟩
  exact Nat.or_lt_two_pow (Nat.and_lt_two_pow a (wnot_lt hb))
    (Nat.and_lt_two_pow b (wrappingNeg_lt w _))

/-- Witness for C8 at concrete 8-bit values. -/
theorem totality_spec_witness :
    (5 : Nat) < 2 ^ 8 ∧ (3 : Nat) < 2 ^ 8 ∧ set 8 5 3 true < 2 ^ 8 :=
  ⟨by decide, by decide,
   (totality_spec Permissions 8 5 3 true (by decide) (by decide)).2.2.2.2.2.2.2.1⟩

/-- C9: the operator forms and their in-place variants have semantics
identical to the named methods. -/
theorem operator_spec (w a b : Nat) :
    bitor a b = union a b
  ∧ bitand a b = intersection a b
  ∧ bitxor a b = symmetric_difference a b
  ∧ not w a = complement w a
  ∧ sub w a b = difference w a b
  ∧ bitor_assign a b = union a b
  ∧ bitand_assign a b = intersection a b
  ∧ bitxor_assign a b = symmetric_difference a b
  ∧ sub_assign w a b = difference w a b :=
  ⟨rfl, rfl, rfl, rfl, rfl, rfl, rfl, rfl, rfl⟩

/-- C3: one Debug rendering walks the constant table in declaration order
(the emitted name/value pairs form a sublist of the table), names only
single-bit definitions, emits leftover bits as a single nonzero hex
literal, emits the literal `empty` exactly when nothing else was emitted,
and OR-ing the values of the emitted names with the leftover hex
reproduces the exact original raw bits. -/
theorem debug_fmt_spec (t : FlagsType) (x : Nat)
    (hv : t.WF) (hx : x < 2 ^ t.width) :
    orAll ((debugFmt t x).emitted.map Prod.snd) ||| ((debugFmt t x).hexPart).getD 0 = x
  ∧ (∀ p ∈ (debugFmt t x).emitted, isSingleBit t.width p.2 = true ∧ p ∈ t.defs)
  ∧ ((debugFmt t x).emitted).Sublist t.defs
  ∧ (∀ b0, (debugFmt t x).hexPart = some b0 → b0 ≠ 0)
  ∧ ((debugFmt t x).emptyLit = true ↔
      (debugFmt t x).emitted = [] ∧ (debugFmt t x).hexPart = none) := by
  obtain ⟨h1, h2, h3, h4, h5, h6⟩ := fmtFlagsLoop_spec t.width t.defs x true hv hx
  have hmem : ∀ p ∈ (fmtFlagsLoop t.width t.defs x true).1,
      isSingleBit t.width p.2 = true ∧ p ∈ t.defs :=
    fun p hp => ⟨(h2 p hp).1, h3.subset hp⟩
  simp only [Bool.true_and] at h4
  by_cases hrem : (fmtFlagsLoop t.width t.defs x true).2.1 = 0
  · have hd : debugFmt t x =
        ⟨(fmtFlagsLoop t.width t.defs x true).1, none,
         (fmtFlagsLoop t.width t.defs x true).2.2⟩ := by
      simp [debugFmt, hrem]
    rw [hd]
    refine ⟨?_, hmem, h3, by simp, ?_⟩
    · rw [hrem] at h1
      simpa using h1
    · rw [h4]
      simp [List.isEmpty_iff]
  · have hd : debugFmt t x =
        ⟨(fmtFlagsLoop t.width t.defs x true).1,
         some (fmtFlagsLoop t.width t.defs x true).2.1, false⟩ := by
      simp [debugFmt, hrem]
    rw [hd]
    refine ⟨by simpa using h1, hmem, h3, ?_, by simp⟩
    intro b0 hb0
    obtain rfl : (fmtFlagsLoop t.width t.defs x true).2.1 = b0 := by
      simpa using hb0
    exact hrem

/-- Witness for C3: rendering 0xF5 under `Permissions` and re-ORing the
emitted values with the hex leftover reproduces 0xF5. -/
theorem debug_fmt_spec_witness :
    Permissions.WF ∧ (245 : Nat) < 2 ^ Permissions.width
  ∧ orAll ((debugFmt Permissions 245).emitted.map Prod.snd) |||
      ((debugFmt Permissions 245).hexPart).getD 0 = 245 :=
  ⟨by decide, by decide, (debug_fmt_spec Permissions 245 (by decide) (by decide)).1⟩

/-- C10: within one rendering the emitted flag values are pairwise
disjoint and pairwise distinct: once a single-bit definition matches, its
bit is cleared from the remaining bits, so a later definition with the
same value never matches and no bit is ever named twice. -/
theorem debug_fmt_no_duplicates (t : FlagsType) (x : Nat)
    (hv : t.WF) (hx : x < 2 ^ t.width) :
    List.Pairwise (fun p q : String × Nat => p.2 &&& q.2 = 0) (debugFmt t x).emitted
  ∧ List.Pairwise (fun p q : String × Nat => p.2 ≠ q.2) (debugFmt t x).emitted := by
  obtain ⟨h1, h2, h3, h4, h5, h6⟩ := fmtFlagsLoop_spec t.width t.defs x true hv hx
  have he : (debugFmt t x).emitted = (fmtFlagsLoop t.width t.defs x true).1 := rfl
  rw [he]
  refine ⟨h6, List.Pairwise.imp_of_mem ?_ h6⟩
  intro p q hp _ hpq hval
  rw [← hval, Nat.and_self] at hpq
  exact isSingleBit_ne_zero (h2 p hp).1 hpq

/-- Witness for C10: under a table with two names for bit 1, rendering the
value 0b11 emits each bit value at most once. -/
theorem debug_fmt_no_duplicates_witness :
    DupFlags.WF ∧ (3 : Nat) < 2 ^ DupFlags.width
  ∧ (debugFmt DupFlags 3).emitted = [("A", 1), ("B", 2)]
  ∧ List.Pairwise (fun p q : String × Nat => p.2 ≠ q.2) (debugFmt DupFlags 3).emitted :=
  ⟨by decide, by decide, by decide,
   (debug_fmt_no_duplicates DupFlags 3 (by decide) (by decide)).2⟩
